import Mathlib

/-!
Verification of the LovecraftTextGen pipeline.

The development shallowly embeds the two notebooks of the repository:
the preprocessing notebook (punctuation token map, text cleaning, rare
token filtering, vocabulary construction) and the generation notebook
(the autoregressive sampling loop over a sliding context window and the
detokenization of the accumulated tokens).

Texts are modelled as lists of characters, tokens as lists of
characters, probabilities as rational numbers, and fallible Python
operations (a torch topk call with too large a k, weighted sampling
with NaN weights, dictionary lookups of missing keys, indexing into an
empty array) as Option-valued functions returning none where the
Python code raises.
-/

/-- Tokens of the pipeline are plain strings, modelled as lists of characters. -/
abbrev Tok := List Char

/-! Reducible rational arithmetic.  The Batteries definitions of
Rat.add, Rat.mul and Rat.sub carry an irreducible attribute, which
blocks kernel evaluation in concrete runs; the definitions below are
extensionally the same functions (see the bridge lemmas) but written
directly with mkRat so that decide can evaluate them. -/

/-- Rational addition, written with mkRat so that it evaluates. -/
def qadd (a b : ℚ) : ℚ := mkRat (a.num * b.den + b.num * a.den) (a.den * b.den)

/-- Rational multiplication, written with mkRat so that it evaluates. -/
def qmul (a b : ℚ) : ℚ := mkRat (a.num * b.num) (a.den * b.den)

/-- Rational subtraction, written with mkRat so that it evaluates. -/
def qsub (a b : ℚ) : ℚ := mkRat (a.num * b.den - b.num * a.den) (a.den * b.den)

/-- Sum of a list of rationals via qadd. -/
def qsum : List ℚ → ℚ
  | [] => 0
  | q :: qs => qadd q (qsum qs)

theorem qadd_eq (a b : ℚ) : qadd a b = a + b := (Rat.add_def' a b).symm

theorem qsub_eq (a b : ℚ) : qsub a b = a - b := (Rat.sub_def' a b).symm

theorem qmul_eq (a b : ℚ) : qmul a b = a * b := by
  rw [qmul, Rat.mul_def, Rat.normalize_eq_mkRat]

theorem qsum_eq (l : List ℚ) : qsum l = l.sum := by
  induction l with
  | nil => rfl
  | cons q qs ih => rw [qsum, qadd_eq, ih, List.sum_cons]

/-! Text primitives.  These model the Python string operations used by
the notebooks: str.replace (left to right, non overlapping), str.lower
(ASCII case folding, which agrees with Python on the corpus alphabet),
str.split() (split on whitespace runs, dropping empty pieces) and
space-join. -/

/-- Boolean prefix test on character lists. -/
def startsWith : List Char → List Char → Bool
  | [], _ => true
  | _ :: _, [] => false
  | p :: ps, c :: cs => p == c && startsWith ps cs

/-- Worker for replaceL: scans the text left to right, replacing each
non overlapping occurrence of the pattern p :: pt by rep, exactly like
Python str.replace with a nonempty pattern.  The structural fuel is
always instantiated with the length of the scanned text, which each
step strictly decreases, so the fuel never runs out. -/
def replaceGoF (p : Char) (pt rep : List Char) : Nat → List Char → List Char
  | 0, s => s
  | _ + 1, [] => []
  | fuel + 1, c :: cs =>
    if startsWith (p :: pt) (c :: cs)
    then rep ++ replaceGoF p pt rep fuel (cs.drop pt.length)
    else c :: replaceGoF p pt rep fuel cs

/-- Python str.replace on character lists.  For the empty pattern,
Python inserts the replacement at every position boundary, including
both ends. -/
def replaceL (s pat rep : List Char) : List Char :=
  match pat with
  | [] => rep ++ s.foldr (fun c acc => c :: (rep ++ acc)) []
  | p :: pt => replaceGoF p pt rep s.length s

/-- ASCII lower casing of one character, matching Python str.lower on
the ASCII range (the only range produced by the corpus pipeline). -/
def toLowerChar (c : Char) : Char :=
  if c = 'A' then 'a' else if c = 'B' then 'b' else if c = 'C' then 'c'
  else if c = 'D' then 'd' else if c = 'E' then 'e' else if c = 'F' then 'f'
  else if c = 'G' then 'g' else if c = 'H' then 'h' else if c = 'I' then 'i'
  else if c = 'J' then 'j' else if c = 'K' then 'k' else if c = 'L' then 'l'
  else if c = 'M' then 'm' else if c = 'N' then 'n' else if c = 'O' then 'o'
  else if c = 'P' then 'p' else if c = 'Q' then 'q' else if c = 'R' then 'r'
  else if c = 'S' then 's' else if c = 'T' then 't' else if c = 'U' then 'u'
  else if c = 'V' then 'v' else if c = 'W' then 'w' else if c = 'X' then 'x'
  else if c = 'Y' then 'y' else if c = 'Z' then 'z' else c

/-- Python str.lower on character lists. -/
def toLowerL (s : List Char) : List Char := s.map toLowerChar

/-- Worker for pySplit: acc holds the (reversed) characters of the
word currently being scanned. -/
def wordsAux : List Char → List Char → List (List Char)
  | [], [] => []
  | [], a :: as => [(a :: as).reverse]
  | c :: cs, acc =>
    if c.isWhitespace then
      match acc with
      | [] => wordsAux cs []
      | a :: as => (a :: as).reverse :: wordsAux cs []
    else wordsAux cs (c :: acc)

/-- Python str.split() with no argument: splits on whitespace runs and
drops empty pieces. -/
def pySplit (s : List Char) : List (List Char) := wordsAux s []

/-- Join a list of words with single spaces, like " ".join in Python. -/
def joinSpace : List (List Char) → List Char
  | [] => []
  | [w] => w
  | w :: w' :: ws => w ++ ' ' :: joinSpace (w' :: ws)

/-- Whitespace normalization " ".join(text.split()) used by clean_text. -/
def collapseWs (s : List Char) : List Char := joinSpace (pySplit s)

/-! Definitions from the preprocessing notebook (1Standardize_Text). -/

/-- Source function token_lookup of the preprocessing notebook: the
ordered punctuation map, keys in Python dict insertion order.  Keys
are punctuation strings, values are space-padded placeholder tokens. -/
def token_lookup : List (List Char × List Char) :=
  [ (".".toList, " <PERIOD> ".toList)
  , ("!".toList, " <EXCLAMATION_MARK> ".toList)
  , ("?".toList, " <QUESTION_MARK> ".toList)
  , (",".toList, " <COMMA> ".toList)
  , ("\"".toList, " <QUOTATION_MARK> ".toList)
  , (";".toList, " <SEMICOLON> ".toList)
  , ("(".toList, " <LEFT_PAREN> ".toList)
  , (")".toList, " <RIGHT_PAREN> ".toList)
  , ("-".toList, " <DASH> ".toList)
  , ("???".toList, " <DASH> ".toList)
  , ("\n".toList, " <NEW_LINE> ".toList) ]

/-- Source function clean_text: apply every replacement of the special
token dict in order, collapse whitespace runs to single spaces, then
lower case. -/
def clean_text (text : List Char) (special_tokens_dict : List (List Char × List Char)) :
    List Char :=
  toLowerL (collapseWs
    (special_tokens_dict.foldl (fun t kv => replaceL t kv.1 kv.2) text))

/-- Distinct elements of a list in order of first occurrence: the key
order of a Python Counter or dict built by one insertion pass. -/
def dedupKeepFirst (l : List Tok) : List Tok :=
  l.foldl (fun acc t => if t ∈ acc then acc else acc ++ [t]) []

/-- Source function filter_text, with the hard coded threshold 3 of
the source lifted to the parameter minFreq.  trimmed_words lists the
distinct tokens whose corpus count exceeds the threshold (membership in
it is exactly that count condition); the filtered stream keeps the
tokens of the input that lie in trimmed_words, in order. -/
def filter_tokens (minFreq : Nat) (tokens : List Tok) : List Tok :=
  let trimmed_words :=
    (dedupKeepFirst tokens).filter (fun w => decide (minFreq < tokens.count w))
  tokens.filter (fun t => decide (t ∈ trimmed_words))

/-- Source filter_text applied to a raw text: split on whitespace, then
filter with the literal threshold 3 of the source. -/
def filter_text (text : List Char) : List Tok := filter_tokens 3 (pySplit text)

/-- The reserved padding token. -/
def padTok : Tok := "<PAD>".toList

/-- Counter value after the increment of the pad entry in
create_lookup_tables: corpus count, plus one for the pad token. -/
def cntF (text : List Tok) (w : Tok) : Nat :=
  text.count w + (if w = padTok then 1 else 0)

/-- Key order of the counter inside create_lookup_tables: first
occurrence order of the corpus tokens; the increment of the pad entry
appends the pad token at the end when it was absent. -/
def counterKeys (text : List Tok) : List Tok :=
  let ks := dedupKeepFirst text
  if padTok ∈ ks then ks else ks ++ [padTok]

/-- Insert a into a list already sorted by descending key, after every
element of key at least key a: the insertion step of a stable
descending sort. -/
def ordInsert {α β : Type} [LinearOrder β] (key : α → β) (a : α) : List α → List α
  | [] => [a]
  | b :: l => if key b ≤ key a then a :: b :: l else b :: ordInsert key a l

/-- Stable sort by descending key, the extensional behaviour of Python
sorted(..., key=..., reverse=True), which is guaranteed stable. -/
def stableSortDesc {α β : Type} [LinearOrder β] (key : α → β) : List α → List α
  | [] => []
  | a :: l => ordInsert key a (stableSortDesc key l)

/-- The sorted_words list of create_lookup_tables: counter keys sorted
by descending count, ties kept in counter insertion order. -/
def sorted_words (text : List Tok) : List Tok :=
  stableSortDesc (cntF text) (counterKeys text)

/-- The int_to_vocab dict of create_lookup_tables: its keys are the
positions 0..N-1 of sorted_words, so it is the positional list itself. -/
def int_to_vocab (text : List Tok) : List Tok := sorted_words text

/-- Position of the first occurrence of a token in a token list (the
id assigned by inverting an enumeration). -/
def idxOf (w : Tok) : List Tok → Nat
  | [] => 0
  | t :: ts => if t = w then 0 else idxOf w ts + 1

/-- The vocab_to_int dict of create_lookup_tables: word to its position
in sorted_words (the keys of int_to_vocab are distinct, so the
inversion loop of the source assigns exactly this index). -/
def vocab_to_int (text : List Tok) (w : Tok) : Nat := idxOf w (sorted_words text)

/-- Source function create_lookup_tables, returning the pair of maps. -/
def create_lookup_tables (text : List Tok) : (Tok → Nat) × List Tok :=
  (vocab_to_int text, int_to_vocab text)

/-! Definitions from the generation notebook (3Generate_Text).  The
trained RNN followed by the softmax of the loop body is abstracted as
the opaque Sequence Predictor of the specification: a function from a
context window to a probability vector over the vocabulary ids. -/

/-- The hard coded top k constant of the generate loop body. -/
def top_k : Nat := 5

/-- Model of torch.Tensor.topk on a probability vector: the k largest
entries together with their indices, values in descending order, ties
kept in index order.  torch raises when k exceeds the number of
entries, hence the none branch. -/
def topk (k : Nat) (p : List ℚ) : Option (List ℚ × List Nat) :=
  if p.length < k then none
  else
    let idxs := (stableSortDesc (fun i => p.getD i 0) (List.range p.length)).take k
    some (idxs.map (fun i => p.getD i 0), idxs)

/-- Inverse cumulative draw on unnormalized weights: walks the weight
list subtracting, returning the id of the first slot whose cumulative
weight exceeds the draw; the last id absorbs any overshoot (a uniform
draw in the unit interval never overshoots). -/
def pickCum : List Nat → List ℚ → ℚ → Nat
  | [], _, _ => 0
  | [i], _, _ => i
  | i :: _ :: _, [], _ => i
  | i :: i' :: is, q :: qs, r =>
    if r < q then i else pickCum (i' :: is) qs (qsub r q)

/-- Model of np.random.choice(ids, p = ps / ps.sum()) driven by one
uniform draw r from the unit interval.  np.random.choice validates the
weight vector: negative entries raise, and a zero total makes the
division produce NaN weights, which also raise — both are the none
branch.  Otherwise the normalized inverse cumulative draw r < cum/total
is taken in the equivalent form r * total < cum. -/
def npChoice (ids : List Nat) (ps : List ℚ) (r : ℚ) : Option Nat :=
  if ps.any (fun q => decide (q < 0)) then none
  else if qsum ps ≤ 0 then none
  else some (pickCum ids ps (qmul r (qsum ps)))

/-- State of the generation loop: the sliding context window of token
ids (current_seq) and the accumulator of generated tokens (predicted). -/
structure GenState where
  window : List Nat
  predicted : List Tok
deriving DecidableEq

/-- One iteration of the generate loop: query the predictor, take the
top k slice, sample one id, resolve it to its token, append the token
to the accumulator, and slide the window (np.roll by -1 followed by
writing the sampled id into the last slot).  Failure points of the
Python body in order: the topk call, the weighted draw, the dict lookup
of the sampled id, and the final write, which raises on a width zero
window. -/
def genStep (k : Nat) (predict : List Nat → List ℚ) (i2v : List Tok) (r : ℚ)
    (st : GenState) : Option GenState :=
  match topk k (predict st.window) with
  | none => none
  | some (pv, pi) =>
    match npChoice pi pv r with
    | none => none
    | some word_i =>
      match i2v.get? word_i with
      | none => none
      | some word =>
        if st.window.isEmpty then none
        else some ⟨st.window.drop 1 ++ [word_i], st.predicted ++ [word]⟩

/-- The generate loop run for a fixed number of steps, consuming one
uniform draw of the stream rs per step. -/
def genLoop (k : Nat) (predict : List Nat → List ℚ) (i2v : List Tok) (rs : Nat → ℚ) :
    Nat → GenState → Option GenState
  | 0, st => some st
  | n + 1, st =>
    match genStep k predict i2v (rs 0) st with
    | none => none
    | some st' => genLoop k predict i2v (fun i => rs (i + 1)) n st'

/-- Detokenization tail of generate: join the accumulated tokens with
single spaces; for every punctuation entry replace one space followed
by the lower cased placeholder with the punctuation key (the local
variable ending of the source is computed but never used); then the two
cosmetic fixups removing the space after a newline and after a left
parenthesis. -/
def genDetok (predicted : List Tok) (token_dict : List (List Char × List Char)) :
    List Char :=
  let gen1 := token_dict.foldl
    (fun g kv => replaceL g (' ' :: toLowerL kv.2) kv.1) (joinSpace predicted)
  replaceL (replaceL gen1 "\n ".toList "\n".toList) "( ".toList "(".toList

/-- Source function generate.  The module level sequence_length global
of the notebook is passed explicitly; the predictor stands for the
softmax of the RNN output; rs is the stream of uniform draws consumed
by np.random.choice.  The window starts as a full row of pad ids with
the prime id written into the last slot (a zero sequence_length makes
that write raise); the accumulator starts with the prime token. -/
def generate (predict : List Nat → List ℚ) (prime_id : Nat) (i2v : List Tok)
    (token_dict : List (List Char × List Char)) (pad_value : Nat)
    (sequence_length : Nat) (rs : Nat → ℚ) (predict_len : Nat) : Option (List Char) :=
  if sequence_length = 0 then none
  else
    match i2v.get? prime_id with
    | none => none
    | some w0 =>
      match genLoop top_k predict i2v rs predict_len
          ⟨List.replicate (sequence_length - 1) pad_value ++ [prime_id], [w0]⟩ with
      | none => none
      | some st => some (genDetok st.predicted token_dict)

/-- Detokenization as worded by the specification: join the tokens
with single spaces, then for every punctuation entry replace each
occurrence of a single space followed by the lower cased placeholder
with the literal punctuation character, then apply exactly two cosmetic
fixups, removing the space after a newline and after a left
parenthesis. -/
def detokenizeSpec (tokens : List Tok) (punctuationMap : List (List Char × List Char)) :
    List Char :=
  let joined := joinSpace tokens
  let replaced := punctuationMap.foldl
    (fun txt kv => replaceL txt ([' '] ++ toLowerL kv.2) kv.1) joined
  replaceL (replaceL replaced ['\n', ' '] ['\n']) ['(', ' '] ['(']

/-! Concrete scenario data shared by the generation claims. -/

/-- The four token vocabulary of the end-to-end scenario of the
specification, positional form of int_to_vocab. -/
def i2v4 : List Tok := ["<PAD>".toList, "the".toList, "cat".toList, "sat".toList]

/-- Stub predictor of the scenario: probability one on id 2 (cat),
zero elsewhere. -/
def stub4 : List Nat → List ℚ := fun _ => [0, 0, 1, 0]

/-- Start state of the scenario: window of four pad ids with the prime
id (the = 1) in the last slot, accumulator holding the prime token. -/
def st0c1 : GenState := ⟨List.replicate 3 0 ++ [1], ["the".toList]⟩

/-- A five token vocabulary large enough for the hard coded top k. -/
def i2v5 : List Tok :=
  ["<PAD>".toList, "the".toList, "cat".toList, "sat".toList, "on".toList]

/-- Stub predictor over five ids: probability one on id 2, zero
elsewhere. -/
def stub5 : List Nat → List ℚ := fun _ => [0, 0, 1, 0, 0]

/-- One scenario step with the top k slice of width 4: from any
nonempty window the stub predictor makes the loop sample id 2 and
append the token cat, for every unit interval draw. -/
lemma c1_step (r : ℚ) (h1 : r < 1) (w : List Nat) (hw : w.isEmpty = false)
    (pred : List Tok) :
    genStep 4 stub4 i2v4 r ⟨w, pred⟩ =
      some ⟨w.drop 1 ++ [2], pred ++ ["cat".toList]⟩ := by
  have ht : topk 4 ([0, 0, 1, 0] : List ℚ) = some ([1, 0, 0, 0], [2, 0, 1, 3]) := by
    decide
  have hc : npChoice [2, 0, 1, 3] [1, 0, 0, 0] r = some 2 := by
    unfold npChoice
    rw [if_neg (by decide), if_neg (by decide)]
    have hq : qmul r (qsum [1, 0, 0, 0]) = r := by
      rw [show qsum [1, 0, 0, 0] = 1 by decide, qmul_eq, mul_one]
    rw [hq, pickCum, if_pos h1]
  have hg : i2v4.get? 2 = some "cat".toList := by decide
  unfold genStep
  simp only [stub4, ht, hc, hg, hw]
  simp [hw]

/-- Claim C1, counterexample: in the end-to-end scenario (four token
vocabulary, window length 4, prime id 1, two steps, stub predictor with
probability one on id 2), the source loop with its hard coded top k of
5 fails — torch topk raises because k = 5 exceeds the four entries of
the distribution — so the generate operation produces no accumulator
and no window at all, instead of the claimed ones. -/
theorem c1_scenario_counterexample :
    genLoop top_k stub4 i2v4 (fun _ => 0) 2 st0c1 = none := by decide

/-- Claim C1 (amended): the scenario as claimed holds once the top k
slice fits the four token vocabulary (k = 4 rather than the hard coded
5, which raises): for every stream of unit interval draws, two steps of
the loop from the window of pad ids with the prime id last produce the
accumulator [the, cat, cat] and the window [0, 1, 2, 2]. -/
theorem c1_scenario_amended (rs : Nat → ℚ) (hrs : ∀ n, 0 ≤ rs n ∧ rs n < 1) :
    genLoop 4 stub4 i2v4 rs 2 st0c1 =
      some ⟨[0, 1, 2, 2], ["the".toList, "cat".toList, "cat".toList]⟩ := by
  have s1 : genStep 4 stub4 i2v4 (rs 0) st0c1 =
      some ⟨[0, 0, 1, 2], ["the".toList, "cat".toList]⟩ := by
    have h := c1_step (rs 0) (hrs 0).2 [0, 0, 0, 1] (by decide) ["the".toList]
    simpa [st0c1] using h
  have s2 : genStep 4 stub4 i2v4 (rs 1)
      ⟨[0, 0, 1, 2], ["the".toList, "cat".toList]⟩ =
      some ⟨[0, 1, 2, 2], ["the".toList, "cat".toList, "cat".toList]⟩ := by
    have h := c1_step (rs 1) (hrs 1).2 [0, 0, 1, 2] (by decide)
      ["the".toList, "cat".toList]
    simpa using h
  calc genLoop 4 stub4 i2v4 rs 2 st0c1
      = (match genStep 4 stub4 i2v4 (rs 0) st0c1 with
         | none => none
         | some st' => genLoop 4 stub4 i2v4 (fun i => rs (i + 1)) 1 st') := rfl
    _ = genLoop 4 stub4 i2v4 (fun i => rs (i + 1)) 1
          ⟨[0, 0, 1, 2], ["the".toList, "cat".toList]⟩ := by rw [s1]
    _ = (match genStep 4 stub4 i2v4 (rs 1)
              ⟨[0, 0, 1, 2], ["the".toList, "cat".toList]⟩ with
         | none => none
         | some st' => genLoop 4 stub4 i2v4 (fun i => rs (i + 1 + 1)) 0 st') := rfl
    _ = some ⟨[0, 1, 2, 2], ["the".toList, "cat".toList, "cat".toList]⟩ := by
          rw [s2]; rfl

/-- Claim C1 witness: the amended scenario run with the all zero draw
stream. -/
theorem c1_scenario_witness :
    genLoop 4 stub4 i2v4 (fun _ => 0) 2 st0c1 =
      some ⟨[0, 1, 2, 2], ["the".toList, "cat".toList, "cat".toList]⟩ :=
  c1_scenario_amended (fun _ => 0) (fun _ => ⟨le_refl 0, zero_lt_one⟩)

/-- Claim C3: evaluation of the code at the failing input.  When the
predictor returns all zero probabilities, the top 5 slice sums to zero;
the source computes p / p.sum(), whose NaN weights make
np.random.choice raise, and generate propagates the error (none in the
embedding) — there is no fallback in the code, contrary to the claim
and to the numeric policy of the specification. -/
theorem c3_degenerate_propagates_error :
    generate (fun _ => [0, 0, 0, 0, 0]) 1 i2v5 token_lookup 0 3 (fun _ => 0) 1 =
      none := by decide

/-- Claim C4: after every successful step of the generation loop the
window keeps its length, and it equals the old window with the element
at index 0 dropped, the rest shifted left, and the freshly sampled id
in the last slot (the appended token being the resolution of that
sampled id). -/
theorem c4_window_sliding (k : Nat) (predict : List Nat → List ℚ) (i2v : List Tok)
    (r : ℚ) (st st' : GenState) (h : genStep k predict i2v r st = some st') :
    st'.window.length = st.window.length ∧
    ∃ w tok, st'.window = st.window.drop 1 ++ [w] ∧
      i2v.get? w = some tok ∧ st'.predicted = st.predicted ++ [tok] := by
  unfold genStep at h
  split at h
  · exact absurd h (by simp)
  next pv pi =>
    split at h
    · exact absurd h (by simp)
    next word_i hchoice =>
      split at h
      · exact absurd h (by simp)
      next word hword =>
        split at h
        · exact absurd h (by simp)
        next hne =>
          have hwin : st.window ≠ [] := by
            intro hnil
            rw [hnil] at hne
            exact hne rfl
          injection h with h'
          subst h'
          refine ⟨?_, word_i, word, rfl, hword, rfl⟩
          have : 1 ≤ st.window.length := by
            cases hcw : st.window with
            | nil => exact absurd hcw hwin
            | cons a as => simp [hcw]
          simp [List.length_drop]
          omega

/-- Claim C4 witness: one concrete successful step. -/
theorem c4_window_sliding_witness :
    ((⟨[0, 1, 2], ["the".toList, "cat".toList]⟩ : GenState).window.length
        = ((⟨[0, 0, 1], ["the".toList]⟩ : GenState)).window.length) ∧
    ∃ w tok,
      (⟨[0, 1, 2], ["the".toList, "cat".toList]⟩ : GenState).window
          = (⟨[0, 0, 1], ["the".toList]⟩ : GenState).window.drop 1 ++ [w] ∧
      i2v5.get? w = some tok ∧
      (⟨[0, 1, 2], ["the".toList, "cat".toList]⟩ : GenState).predicted
          = (⟨[0, 0, 1], ["the".toList]⟩ : GenState).predicted ++ [tok] :=
  c4_window_sliding 5 stub5 i2v5 0 ⟨[0, 0, 1], ["the".toList]⟩
    ⟨[0, 1, 2], ["the".toList, "cat".toList]⟩ (by decide)

/-- The detokenization tail of generate coincides with the
detokenization as worded by the specification. -/
lemma genDetok_eq_detokenizeSpec (p : List Tok) (d : List (List Char × List Char)) :
    genDetok p d = detokenizeSpec p d := rfl

/-- Claim C2: whenever generate returns a text, that text is obtained
from the accumulated token list by joining with single spaces, then
replacing, for every punctuation entry, each occurrence of a single
space followed by the lower cased placeholder with the punctuation
character, then applying exactly the two cosmetic fixups (removing the
space after a newline and after a left parenthesis). -/
theorem c2_detokenization_contract (predict : List Nat → List ℚ) (prime_id : Nat)
    (i2v : List Tok) (token_dict : List (List Char × List Char)) (pad_value : Nat)
    (sequence_length : Nat) (rs : Nat → ℚ) (predict_len : Nat) (out : List Char)
    (h : generate predict prime_id i2v token_dict pad_value sequence_length rs
          predict_len = some out) :
    ∃ w0 st, i2v.get? prime_id = some w0 ∧
      genLoop top_k predict i2v rs predict_len
        ⟨List.replicate (sequence_length - 1) pad_value ++ [prime_id], [w0]⟩ =
          some st ∧
      out = detokenizeSpec st.predicted token_dict := by
  unfold generate at h
  split at h
  · exact absurd h (by simp)
  split at h
  · exact absurd h (by simp)
  next w0 hw0 =>
    split at h
    · exact absurd h (by simp)
    next st hst =>
      injection h with h'
      exact ⟨w0, st, hw0, hst, h'.symm.trans (genDetok_eq_detokenizeSpec _ _)⟩

/-- Claim C2 witness: a concrete successful run of generate. -/
theorem c2_detokenization_witness :
    ∃ w0 st, i2v5.get? 1 = some w0 ∧
      genLoop top_k stub5 i2v5 (fun _ => 0) 1
        ⟨List.replicate (3 - 1) 0 ++ [1], [w0]⟩ = some st ∧
      "the cat".toList = detokenizeSpec st.predicted token_lookup :=
  c2_detokenization_contract stub5 1 i2v5 token_lookup 0 3 (fun _ => 0) 1
    "the cat".toList (by decide)

/-- Membership in the first-occurrence dedup pass. -/
lemma mem_foldl_dedup (l : List Tok) (acc : List Tok) (x : Tok) :
    x ∈ l.foldl (fun acc t => if t ∈ acc then acc else acc ++ [t]) acc ↔
      x ∈ acc ∨ x ∈ l := by
  induction l generalizing acc with
  | nil => simp
  | cons t ts ih =>
    simp only [List.foldl_cons]
    by_cases ht : t ∈ acc
    · rw [if_pos ht, ih]
      constructor
      · rintro (hx | hx)
        · exact Or.inl hx
        · exact Or.inr (List.mem_cons_of_mem _ hx)
      · rintro (hx | hx)
        · exact Or.inl hx
        · rcases List.mem_cons.mp hx with hx | hx
          · exact Or.inl (hx ▸ ht)
          · exact Or.inr hx
    · rw [if_neg ht, ih]
      simp only [List.mem_append, List.mem_singleton, List.mem_cons]
      tauto

/-- Membership in dedupKeepFirst is membership in the source list. -/
lemma mem_dedupKeepFirst {x : Tok} {l : List Tok} :
    x ∈ dedupKeepFirst l ↔ x ∈ l := by
  rw [dedupKeepFirst, mem_foldl_dedup]
  simp

/-- Claim C6: a token whose corpus frequency is at most the threshold
never appears in the filtered stream, a token of frequency at least
threshold plus one always survives, and the output is a subsequence of
the input (original order preserved). -/
theorem c6_rare_token_filtering (minFreq : Nat) (tokens : List Tok) :
    (∀ t, tokens.count t ≤ minFreq → t ∉ filter_tokens minFreq tokens) ∧
    (∀ t, t ∈ tokens → minFreq + 1 ≤ tokens.count t →
      t ∈ filter_tokens minFreq tokens) ∧
    (filter_tokens minFreq tokens).Sublist tokens := by
  unfold filter_tokens
  refine ⟨?_, ?_, List.filter_sublist _⟩
  · intro t hc hmem
    rw [List.mem_filter, decide_eq_true_iff, List.mem_filter,
      decide_eq_true_iff] at hmem
    omega
  · intro t hmem hcnt
    rw [List.mem_filter, decide_eq_true_iff, List.mem_filter, decide_eq_true_iff]
    exact ⟨hmem, mem_dedupKeepFirst.mpr hmem, by omega⟩

/-- Concrete token stream for the filtering witness. -/
def toksW : List Tok :=
  ["a".toList, "a".toList, "a".toList, "a".toList, "b".toList]

/-- Claim C6 witness: with threshold 3, the token b of frequency 1 is
dropped, the token a of frequency 4 survives, and the output is a
subsequence. -/
theorem c6_rare_token_filtering_witness :
    "b".toList ∉ filter_tokens 3 toksW ∧ "a".toList ∈ filter_tokens 3 toksW ∧
      (filter_tokens 3 toksW).Sublist toksW :=
  ⟨(c6_rare_token_filtering 3 toksW).1 "b".toList (by decide),
   (c6_rare_token_filtering 3 toksW).2.1 "a".toList (by decide) (by decide),
   (c6_rare_token_filtering 3 toksW).2.2⟩

/-! Lemmas about the stable descending sort used by the vocabulary
builder. -/

/-- Membership through one insertion step. -/
lemma mem_ordInsert {α β : Type} [LinearOrder β] (key : α → β) (a x : α)
    (l : List α) : x ∈ ordInsert key a l ↔ x = a ∨ x ∈ l := by
  induction l with
  | nil => simp [ordInsert]
  | cons b bs ih =>
    rw [ordInsert]
    by_cases h : key b ≤ key a
    · rw [if_pos h]
      simp only [List.mem_cons]
    · rw [if_neg h, List.mem_cons, ih, List.mem_cons]
      tauto

/-- Insertion is a permutation of consing. -/
lemma perm_ordInsert {α β : Type} [LinearOrder β] (key : α → β) (a : α)
    (l : List α) : (ordInsert key a l).Perm (a :: l) := by
  induction l with
  | nil => rfl
  | cons b bs ih =>
    rw [ordInsert]
    by_cases h : key b ≤ key a
    · rw [if_pos h]
    · rw [if_neg h]
      exact (ih.cons b).trans (List.Perm.swap a b bs)

/-- The stable descending sort permutes its input. -/
lemma perm_stableSortDesc {α β : Type} [LinearOrder β] (key : α → β)
    (l : List α) : (stableSortDesc key l).Perm l := by
  induction l with
  | nil => rfl
  | cons a as ih =>
    rw [stableSortDesc]
    exact (perm_ordInsert key a (stableSortDesc key as)).trans (ih.cons a)

/-- Pairwise preservation through one insertion step, for a relation R
whose left argument always carries the larger key. -/
lemma pairwise_ordInsert {α β : Type} [LinearOrder β] (key : α → β)
    (R : α → α → Prop) (a : α) (l : List α)
    (hp : l.Pairwise R)
    (hin : ∀ b ∈ l, (key b ≤ key a → R a b) ∧ (¬ key b ≤ key a → R b a))
    (hkey : ∀ b x, R b x → key x ≤ key b) :
    (ordInsert key a l).Pairwise R := by
  induction l with
  | nil => simp [ordInsert]
  | cons b bs ih =>
    have hp' := List.pairwise_cons.mp hp
    rw [ordInsert]
    by_cases h : key b ≤ key a
    · rw [if_pos h]
      refine List.Pairwise.cons ?_ hp
      intro x hx
      rcases List.mem_cons.mp hx with hxb | hxbs
      · rw [hxb]
        exact (hin b (List.mem_cons_self _ _)).1 h
      · have hbx : R b x := hp'.1 x hxbs
        exact (hin x (List.mem_cons_of_mem _ hxbs)).1 (le_trans (hkey b x hbx) h)
    · rw [if_neg h]
      refine List.Pairwise.cons ?_
        (ih hp'.2 (fun x hx => hin x (List.mem_cons_of_mem _ hx)))
      intro x hx
      rcases (mem_ordInsert key a x bs).mp hx with hxa | hxbs
      · rw [hxa]
        exact (hin b (List.mem_cons_self _ _)).2 h
      · exact hp'.1 x hxbs

/-- Stability of the descending sort: a relation R holds pairwise on
the output provided the input orders every pair suitably on both sides
of the key comparison. -/
lemma pairwise_stableSortDesc {α β : Type} [LinearOrder β] (key : α → β)
    (R : α → α → Prop) (l : List α)
    (hkey : ∀ b x, R b x → key x ≤ key b)
    (hl : l.Pairwise (fun a b => (key b ≤ key a → R a b) ∧ (¬ key b ≤ key a → R b a))) :
    (stableSortDesc key l).Pairwise R := by
  induction l with
  | nil => constructor
  | cons a l ih =>
    rw [stableSortDesc]
    have hl' := List.pairwise_cons.mp hl
    refine pairwise_ordInsert key R a _ (ih hl'.2) ?_ hkey
    intro b hb
    exact hl'.1 b ((perm_stableSortDesc key l).mem_iff.mp hb)

/-- The dedup fold preserves distinctness of the accumulator. -/
lemma nodup_foldl_dedup (l : List Tok) (acc : List Tok) (h : acc.Nodup) :
    (l.foldl (fun acc t => if t ∈ acc then acc else acc ++ [t]) acc).Nodup := by
  induction l generalizing acc with
  | nil => exact h
  | cons t ts ih =>
    simp only [List.foldl_cons]
    by_cases ht : t ∈ acc
    · rw [if_pos ht]
      exact ih _ h
    · rw [if_neg ht]
      refine ih _ (List.nodup_append.mpr ⟨h, List.nodup_singleton t, ?_⟩)
      intro x hx hxt
      rw [List.mem_singleton] at hxt
      exact ht (hxt ▸ hx)

/-- dedupKeepFirst returns a list without duplicates. -/
lemma nodup_dedupKeepFirst (l : List Tok) : (dedupKeepFirst l).Nodup :=
  nodup_foldl_dedup l [] List.nodup_nil

/-- The counter key list is duplicate free. -/
lemma nodup_counterKeys (text : List Tok) : (counterKeys text).Nodup := by
  rw [counterKeys]
  by_cases hp : padTok ∈ dedupKeepFirst text
  · rw [if_pos hp]
    exact nodup_dedupKeepFirst text
  · rw [if_neg hp]
    refine List.nodup_append.mpr
      ⟨nodup_dedupKeepFirst text, List.nodup_singleton _, ?_⟩
    intro x hx hxp
    rw [List.mem_singleton] at hxp
    exact hp (hxp ▸ hx)

/-- The pad token is always among the counter keys. -/
lemma padTok_mem_counterKeys (text : List Tok) : padTok ∈ counterKeys text := by
  rw [counterKeys]
  by_cases hp : padTok ∈ dedupKeepFirst text
  · rw [if_pos hp]
    exact hp
  · rw [if_neg hp]
    exact List.mem_append_right _ (List.mem_singleton_self _)

/-- The index of a member is below the length. -/
lemma idxOf_lt_length {w : Tok} {l : List Tok} (h : w ∈ l) : idxOf w l < l.length := by
  induction l with
  | nil => cases h
  | cons t ts ih =>
    rw [idxOf]
    by_cases ht : t = w
    · rw [if_pos ht]
      simp
    · rw [if_neg ht]
      have hw : w ∈ ts := by
        rcases List.mem_cons.mp h with hw | hw
        · exact absurd hw.symm ht
        · exact hw
      simpa using ih hw

/-- Positional access at the index of a member returns the member. -/
lemma getD_idxOf {w : Tok} {l : List Tok} (h : w ∈ l) :
    l.getD (idxOf w l) [] = w := by
  induction l with
  | nil => cases h
  | cons t ts ih =>
    rw [idxOf]
    by_cases ht : t = w
    · rw [if_pos ht]
      exact ht
    · rw [if_neg ht]
      have hw : w ∈ ts := by
        rcases List.mem_cons.mp h with hw | hw
        · exact absurd hw.symm ht
        · exact hw
      simpa using ih hw

/-- In a duplicate free list, the index of the element at position i is
i itself. -/
lemma nodup_idxOf_getD (l : List Tok) (h : l.Nodup) (i : Nat)
    (hi : i < l.length) : idxOf (l.getD i []) l = i := by
  induction l generalizing i with
  | nil => simp at hi
  | cons t ts ih =>
    have h' := List.nodup_cons.mp h
    cases i with
    | zero =>
      simp [List.getD_cons_zero, idxOf]
    | succ j =>
      have hj : j < ts.length := by simpa using hi
      rw [List.getD_cons_succ, idxOf]
      have hne : t ≠ ts.getD j [] := by
        intro hteq
        exact h'.1 (hteq ▸ (List.getD_eq_getElem ts [] hj ▸ List.getElem_mem hj))
      rw [if_neg hne, ih h'.2 j hj]

/-- A duplicate free list is pairwise increasing in idxOf. -/
lemma nodup_pairwise_idxOf (l : List Tok) (h : l.Nodup) :
    l.Pairwise (fun a b => idxOf a l < idxOf b l) := by
  rw [List.pairwise_iff_getElem]
  intro i j hi hj hij
  have hgi : l[i] = l.getD i [] := (List.getD_eq_getElem l [] hi).symm
  have hgj : l[j] = l.getD j [] := (List.getD_eq_getElem l [] hj).symm
  rw [hgi, hgj, nodup_idxOf_getD l h i hi, nodup_idxOf_getD l h j hj]
  exact hij

/-- Claim C5: the two maps returned by the vocabulary builder are
mutually inverse on the built vocabulary, and the assigned ids are
exactly the positions 0..N-1 of the sorted word list, where N counts
the distinct tokens including the padding token — no gaps (every
position below N is the id of the token stored there) and no
duplicates (the sorted word list is duplicate free). -/
theorem c5_vocab_bijection (text : List Tok) :
    (int_to_vocab text).Nodup ∧
    (int_to_vocab text).length = (counterKeys text).length ∧
    (∀ w, w ∈ int_to_vocab text →
      (int_to_vocab text).getD (vocab_to_int text w) [] = w ∧
      vocab_to_int text w < (int_to_vocab text).length) ∧
    (∀ i, i < (int_to_vocab text).length →
      vocab_to_int text ((int_to_vocab text).getD i []) = i) := by
  have hperm := perm_stableSortDesc (cntF text) (counterKeys text)
  have hnd : (sorted_words text).Nodup :=
    hperm.nodup_iff.mpr (nodup_counterKeys text)
  refine ⟨hnd, hperm.length_eq, ?_, ?_⟩
  · intro w hw
    exact ⟨getD_idxOf hw, idxOf_lt_length hw⟩
  · intro i hi
    exact nodup_idxOf_getD _ hnd i hi

/-- Concrete corpus for the vocabulary witnesses. -/
def voctextW : List Tok := ["a".toList, "b".toList, "b".toList]

/-- Claim C5 witness: round trip and id range checks on a concrete
corpus. -/
theorem c5_vocab_bijection_witness :
    (int_to_vocab voctextW).getD (vocab_to_int voctextW "b".toList) []
        = "b".toList ∧
    vocab_to_int voctextW "b".toList < (int_to_vocab voctextW).length ∧
    vocab_to_int voctextW ((int_to_vocab voctextW).getD 2 []) = 2 :=
  ⟨((c5_vocab_bijection voctextW).2.2.1 "b".toList (by decide)).1,
   ((c5_vocab_bijection voctextW).2.2.1 "b".toList (by decide)).2,
   (c5_vocab_bijection voctextW).2.2.2 2 (by decide)⟩

/-- Claim C7: for every token list — in particular the rare-token
filtered stream of the production pipeline, and lists in which the
padding token never occurs — the vocabulary builder includes the
padding token with a valid id; the pad enters through the count
increment (its counter value is its corpus count plus one) and is never
passed through the rare-token frequency filter, which runs before the
builder. -/
theorem c7_padding_token_inclusion (text : List Tok) :
    padTok ∈ int_to_vocab text ∧
    vocab_to_int text padTok < (int_to_vocab text).length ∧
    cntF text padTok = text.count padTok + 1 := by
  have hperm := perm_stableSortDesc (cntF text) (counterKeys text)
  have hmem : padTok ∈ sorted_words text :=
    hperm.mem_iff.mpr (padTok_mem_counterKeys text)
  exact ⟨hmem, idxOf_lt_length hmem, by simp [cntF]⟩

/-- Claim C8: the vocabulary builder assigns ids in order of non
increasing frequency (the counter value, which adds one for the pad
token), and tokens of equal frequency keep the insertion order of the
counter — the order of first encounter in the input, the pad token
counting as a final encounter when absent. -/
theorem c8_vocab_id_order (text : List Tok) :
    (sorted_words text).Perm (counterKeys text) ∧
    (sorted_words text).Pairwise (fun a b =>
      cntF text b < cntF text a ∨
      (cntF text a = cntF text b ∧
        idxOf a (counterKeys text) < idxOf b (counterKeys text))) := by
  refine ⟨perm_stableSortDesc _ _, ?_⟩
  refine pairwise_stableSortDesc (cntF text) _ _ ?_ ?_
  · intro b x hbx
    rcases hbx with h | ⟨h, _⟩
    · exact le_of_lt h
    · exact le_of_eq h.symm
  · have hidx := nodup_pairwise_idxOf _ (nodup_counterKeys text)
    refine hidx.imp ?_
    intro a b hab
    constructor
    · intro hle
      rcases lt_or_eq_of_le hle with hlt | heq
      · exact Or.inl hlt
      · exact Or.inr ⟨heq.symm, hab⟩
    · intro hnle
      exact Or.inl (not_le.mp hnle)

/-! Lemmas about the replacement scanner. -/

/-- A successful prefix test puts every pattern character in the text. -/
lemma startsWith_mem (pat l : List Char) (h : startsWith pat l = true) :
    ∀ x ∈ pat, x ∈ l := by
  induction pat generalizing l with
  | nil => simp
  | cons p ps ih =>
    cases l with
    | nil => simp [startsWith] at h
    | cons c cs =>
      rw [startsWith, Bool.and_eq_true, beq_iff_eq] at h
      intro x hx
      rcases List.mem_cons.mp hx with hxp | hxps
      · exact hxp ▸ h.1 ▸ List.mem_cons_self _ _
      · exact List.mem_cons_of_mem _ (ih cs h.2 x hxps)

/-- A pattern with a character absent from the text never fires. -/
lemma replaceGoF_no_occ (p : Char) (pt rep : List Char) (x : Char)
    (hxp : x ∈ p :: pt) (fuel : Nat) :
    ∀ s : List Char, x ∉ s → replaceGoF p pt rep fuel s = s := by
  induction fuel with
  | zero => intro s _; rfl
  | succ n ih =>
    intro s hxs
    cases s with
    | nil => rfl
    | cons c cs =>
      have hpre : startsWith (p :: pt) (c :: cs) = false := by
        cases hsw : startsWith (p :: pt) (c :: cs) with
        | false => rfl
        | true => exact absurd (startsWith_mem _ _ hsw x hxp) hxs
      rw [replaceGoF, hpre]
      simp only [Bool.false_eq_true, if_false]
      rw [ih cs (fun h => hxs (List.mem_cons_of_mem _ h))]

/-- replaceL with a pattern containing a character absent from the text
is the identity. -/
lemma replaceL_no_char (s pat rep : List Char) (x : Char) (hxp : x ∈ pat)
    (hxs : x ∉ s) : replaceL s pat rep = s := by
  cases pat with
  | nil => cases hxp
  | cons p pt => exact replaceGoF_no_occ p pt rep x hxp s.length s hxs

/-- Characters of the scanner output come from the text or the
replacement. -/
lemma mem_replaceGoF (p : Char) (pt rep : List Char) (fuel : Nat) (x : Char) :
    ∀ s : List Char, x ∈ replaceGoF p pt rep fuel s → x ∈ s ∨ x ∈ rep := by
  induction fuel with
  | zero => intro s hx; exact Or.inl hx
  | succ n ih =>
    intro s hx
    cases s with
    | nil => cases hx
    | cons c cs =>
      rw [replaceGoF] at hx
      by_cases hsw : startsWith (p :: pt) (c :: cs) = true
      · rw [if_pos hsw] at hx
        rcases List.mem_append.mp hx with hr | hrec
        · exact Or.inr hr
        · rcases ih _ hrec with hdrop | hr
          · exact Or.inl (List.mem_cons_of_mem _ (List.mem_of_mem_drop hdrop))
          · exact Or.inr hr
      · rw [if_neg hsw] at hx
        rcases List.mem_cons.mp hx with hxc | hrec
        · exact Or.inl (hxc ▸ List.mem_cons_self _ _)
        · rcases ih _ hrec with h1 | h2
          · exact Or.inl (List.mem_cons_of_mem _ h1)
          · exact Or.inr h2

/-- Characters of the empty-pattern branch of replaceL. -/
lemma mem_foldr_insert (rep : List Char) (s : List Char) (x : Char)
    (hx : x ∈ s.foldr (fun c acc => c :: (rep ++ acc)) []) : x ∈ s ∨ x ∈ rep := by
  induction s with
  | nil => cases hx
  | cons c cs ih =>
    simp only [List.foldr_cons] at hx
    rcases List.mem_cons.mp hx with h | h
    · exact Or.inl (h ▸ List.mem_cons_self _ _)
    · rcases List.mem_append.mp h with h | h
      · exact Or.inr h
      · rcases ih h with h | h
        · exact Or.inl (List.mem_cons_of_mem _ h)
        · exact Or.inr h

/-- Characters of a replaceL output come from the text or the
replacement. -/
lemma mem_replaceL (s pat rep : List Char) (x : Char)
    (hx : x ∈ replaceL s pat rep) : x ∈ s ∨ x ∈ rep := by
  cases pat with
  | nil =>
    rw [replaceL] at hx
    rcases List.mem_append.mp hx with h | h
    · exact Or.inr h
    · exact mem_foldr_insert rep s x h
  | cons p pt => exact mem_replaceGoF p pt rep s.length x s hx

/-- replaceL never introduces a character absent from both the text and
the replacement. -/
lemma replaceL_not_mem (s pat rep : List Char) (x : Char) (hxs : x ∉ s)
    (hxr : x ∉ rep) : x ∉ replaceL s pat rep :=
  fun h => (mem_replaceL s pat rep x h).elim hxs hxr

/-- Replacing a single character pattern by a replacement free of that
character removes every occurrence of it. -/
lemma replaceGoF_single_not_mem (q : Char) (rep : List Char) (hq : q ∉ rep)
    (fuel : Nat) : ∀ s : List Char, s.length ≤ fuel →
      q ∉ replaceGoF q [] rep fuel s := by
  induction fuel with
  | zero =>
    intro s hfuel
    rw [List.eq_nil_of_length_eq_zero (Nat.le_zero.mp hfuel)]
    intro h
    cases h
  | succ n ih =>
    intro s hfuel
    cases s with
    | nil => intro h; cases h
    | cons c cs =>
      rw [replaceGoF]
      by_cases hc : c = q
      · have hsw : startsWith [q] (c :: cs) = true := by
          rw [startsWith, hc]
          simp [startsWith]
        rw [if_pos hsw]
        intro hmem
        rcases List.mem_append.mp hmem with h | h
        · exact hq h
        · have hlen : (cs.drop 0).length ≤ n := by
            simp only [List.drop_zero]
            exact Nat.le_of_succ_le_succ (by simpa using hfuel)
          exact ih (cs.drop 0) hlen h
      · have hsw : startsWith [q] (c :: cs) = false := by
          rw [startsWith]
          simp [startsWith]
          exact fun h => absurd h.symm hc
        rw [hsw]
        simp only [Bool.false_eq_true, if_false]
        intro hmem
        rcases List.mem_cons.mp hmem with h | h
        · exact hc h.symm
        · exact ih cs (Nat.le_of_succ_le_succ (by simpa using hfuel)) h

/-- Single character removal at the replaceL level. -/
lemma replaceL_single_removes (q : Char) (rep s : List Char) (hq : q ∉ rep) :
    q ∉ replaceL s [q] rep :=
  replaceGoF_single_not_mem q rep hq s.length s (le_refl _)

/-! Lemmas about whitespace splitting and lower casing. -/

/-- Unfolding of the splitter worker on a nonempty text (stated by
hand: the nested match on the accumulator splits the automatically
generated equations). -/
lemma wordsAux_cons (c : Char) (cs acc : List Char) : wordsAux (c :: cs) acc =
    if c.isWhitespace then
      (match acc with
       | [] => wordsAux cs []
       | a :: as => (a :: as).reverse :: wordsAux cs [])
    else wordsAux cs (c :: acc) := rfl

/-- Words produced by the splitter are nonempty and free of whitespace,
provided the accumulator is. -/
lemma wordsAux_wf (s : List Char) : ∀ acc : List Char,
    (∀ c ∈ acc, ¬ c.isWhitespace) →
    ∀ w ∈ wordsAux s acc, w ≠ [] ∧ ∀ c ∈ w, ¬ c.isWhitespace := by
  induction s with
  | nil =>
    intro acc hacc w hw
    cases acc with
    | nil => cases hw
    | cons a as =>
      rw [wordsAux, List.mem_singleton] at hw
      subst hw
      refine ⟨by simp, ?_⟩
      intro c hc
      exact hacc c (List.mem_reverse.mp hc)
  | cons c cs ih =>
    intro acc hacc w hw
    rw [wordsAux_cons] at hw
    by_cases hws : c.isWhitespace
    · rw [if_pos hws] at hw
      cases acc with
      | nil => exact ih [] (by simp) w hw
      | cons a as =>
        rcases List.mem_cons.mp hw with hwh | hwt
        · subst hwh
          refine ⟨by simp, ?_⟩
          intro x hx
          exact hacc x (List.mem_reverse.mp hx)
        · exact ih [] (by simp) w hwt
    · rw [if_neg hws] at hw
      refine ih (c :: acc) ?_ w hw
      intro x hx
      rcases List.mem_cons.mp hx with hxc | hxa
      · exact hxc ▸ hws
      · exact hacc x hxa

/-- Scanning a whitespace free word accumulates it entirely. -/
lemma wordsAux_append_word (w : List Char) (hw : ∀ c ∈ w, ¬ c.isWhitespace)
    (s : List Char) : ∀ acc : List Char,
    wordsAux (w ++ s) acc = wordsAux s (w.reverse ++ acc) := by
  induction w with
  | nil => intro acc; simp
  | cons c ws ih =>
    intro acc
    simp only [List.cons_append]
    rw [wordsAux_cons, if_neg (hw c (List.mem_cons_self _ _))]
    rw [ih (fun x hx => hw x (List.mem_cons_of_mem _ hx)) (c :: acc)]
    simp [List.reverse_cons, List.append_assoc]

/-- The splitter on a whitespace head flushes a nonempty accumulator. -/
lemma wordsAux_ws_acc_cons (c : Char) (hc : c.isWhitespace = true)
    (cs : List Char) (a : Char) (as : List Char) :
    wordsAux (c :: cs) (a :: as) = (a :: as).reverse :: wordsAux cs [] := by
  rw [wordsAux_cons, if_pos hc]

/-- Splitting the space join of nonempty whitespace free words recovers
the words. -/
lemma pySplit_joinSpace (ws : List (List Char))
    (h : ∀ w ∈ ws, w ≠ [] ∧ ∀ c ∈ w, ¬ c.isWhitespace) :
    pySplit (joinSpace ws) = ws := by
  induction ws with
  | nil => rfl
  | cons w ws ih =>
    have hw := h w (List.mem_cons_self _ _)
    cases ws with
    | nil =>
      rw [joinSpace, pySplit]
      have hscan := wordsAux_append_word w hw.2 [] []
      rw [List.append_nil, List.append_nil] at hscan
      rw [hscan]
      cases hrev : w.reverse with
      | nil =>
        exact absurd (by simpa using congrArg List.reverse hrev) (by simpa using hw.1)
      | cons a as =>
        rw [wordsAux]
        rw [← hrev, List.reverse_reverse]
    | cons w' ws' =>
      rw [joinSpace, pySplit]
      have hscan := wordsAux_append_word w hw.2 (' ' :: joinSpace (w' :: ws')) []
      rw [List.append_nil] at hscan
      rw [hscan]
      cases hrev : w.reverse with
      | nil =>
        exact absurd (by simpa using congrArg List.reverse hrev) (by simpa using hw.1)
      | cons a as =>
        rw [wordsAux_ws_acc_cons ' ' (by decide), ← hrev, List.reverse_reverse]
        have ihr := ih (fun x hx => h x (List.mem_cons_of_mem _ hx))
        rw [pySplit] at ihr
        rw [ihr]

/-- Whitespace collapsing is idempotent. -/
lemma collapseWs_idem (s : List Char) : collapseWs (collapseWs s) = collapseWs s := by
  rw [collapseWs, collapseWs]
  rw [pySplit_joinSpace (pySplit s) (wordsAux_wf s [] (by simp))]

/-- Characters other than the twenty six upper case letters are fixed
by the lower case table. -/
lemma toLowerChar_not_upper (c : Char)
    (hc : c ∉ "ABCDEFGHIJKLMNOPQRSTUVWXYZ".toList) : toLowerChar c = c := by
  have h1 : ¬ (c = 'A') := fun h => hc (by rw [h]; decide)
  have h2 : ¬ (c = 'B') := fun h => hc (by rw [h]; decide)
  have h3 : ¬ (c = 'C') := fun h => hc (by rw [h]; decide)
  have h4 : ¬ (c = 'D') := fun h => hc (by rw [h]; decide)
  have h5 : ¬ (c = 'E') := fun h => hc (by rw [h]; decide)
  have h6 : ¬ (c = 'F') := fun h => hc (by rw [h]; decide)
  have h7 : ¬ (c = 'G') := fun h => hc (by rw [h]; decide)
  have h8 : ¬ (c = 'H') := fun h => hc (by rw [h]; decide)
  have h9 : ¬ (c = 'I') := fun h => hc (by rw [h]; decide)
  have h10 : ¬ (c = 'J') := fun h => hc (by rw [h]; decide)
  have h11 : ¬ (c = 'K') := fun h => hc (by rw [h]; decide)
  have h12 : ¬ (c = 'L') := fun h => hc (by rw [h]; decide)
  have h13 : ¬ (c = 'M') := fun h => hc (by rw [h]; decide)
  have h14 : ¬ (c = 'N') := fun h => hc (by rw [h]; decide)
  have h15 : ¬ (c = 'O') := fun h => hc (by rw [h]; decide)
  have h16 : ¬ (c = 'P') := fun h => hc (by rw [h]; decide)
  have h17 : ¬ (c = 'Q') := fun h => hc (by rw [h]; decide)
  have h18 : ¬ (c = 'R') := fun h => hc (by rw [h]; decide)
  have h19 : ¬ (c = 'S') := fun h => hc (by rw [h]; decide)
  have h20 : ¬ (c = 'T') := fun h => hc (by rw [h]; decide)
  have h21 : ¬ (c = 'U') := fun h => hc (by rw [h]; decide)
  have h22 : ¬ (c = 'V') := fun h => hc (by rw [h]; decide)
  have h23 : ¬ (c = 'W') := fun h => hc (by rw [h]; decide)
  have h24 : ¬ (c = 'X') := fun h => hc (by rw [h]; decide)
  have h25 : ¬ (c = 'Y') := fun h => hc (by rw [h]; decide)
  have h26 : ¬ (c = 'Z') := fun h => hc (by rw [h]; decide)
  rw [toLowerChar, if_neg h1, if_neg h2, if_neg h3, if_neg h4, if_neg h5, if_neg h6, if_neg h7, if_neg h8, if_neg h9, if_neg h10, if_neg h11, if_neg h12, if_neg h13, if_neg h14, if_neg h15, if_neg h16, if_neg h17, if_neg h18, if_neg h19, if_neg h20, if_neg h21, if_neg h22, if_neg h23, if_neg h24, if_neg h25, if_neg h26]


/-- Lower case letters are fixed by the lower case table. -/
lemma toLowerChar_fix_lower (d : Char)
    (h : d ∈ "abcdefghijklmnopqrstuvwxyz".toList) : toLowerChar d = d := by
  fin_cases h <;> decide

/-- The lower case table sends every character to itself or to a lower
case letter. -/
lemma toLowerChar_cases (c : Char) : toLowerChar c = c ∨
    toLowerChar c ∈ "abcdefghijklmnopqrstuvwxyz".toList := by
  by_cases hc : c ∈ "ABCDEFGHIJKLMNOPQRSTUVWXYZ".toList
  · right
    fin_cases hc <;> decide
  · left
    exact toLowerChar_not_upper c hc

/-- The lower case table is idempotent. -/
lemma toLowerChar_idem (c : Char) : toLowerChar (toLowerChar c) = toLowerChar c := by
  rcases toLowerChar_cases c with h | h
  · rw [h]
    exact h
  · exact toLowerChar_fix_lower _ h

/-- Lower casing does not change whitespace classification. -/
lemma toLowerChar_ws (c : Char) : (toLowerChar c).isWhitespace = c.isWhitespace := by
  by_cases hc : c ∈ "ABCDEFGHIJKLMNOPQRSTUVWXYZ".toList
  · fin_cases hc <;> decide
  · rw [toLowerChar_not_upper c hc]

/-- Lower casing a text is idempotent. -/
lemma toLowerL_idem (s : List Char) : toLowerL (toLowerL s) = toLowerL s := by
  induction s with
  | nil => rfl
  | cons c cs ih =>
    simp only [toLowerL, List.map_cons] at ih ⊢
    rw [toLowerChar_idem, ih]

/-- The splitter on a whitespace head with an empty accumulator skips. -/
lemma wordsAux_ws_acc_nil (c : Char) (hc : c.isWhitespace = true) (cs : List Char) :
    wordsAux (c :: cs) [] = wordsAux cs [] := by
  rw [wordsAux_cons, if_pos hc]

/-- The splitter on a non whitespace head extends the accumulator. -/
lemma wordsAux_not_ws (c : Char) (hc : c.isWhitespace = false) (cs acc : List Char) :
    wordsAux (c :: cs) acc = wordsAux cs (c :: acc) := by
  rw [wordsAux_cons, hc]
  simp only [Bool.false_eq_true, if_false]

/-- Lower casing commutes with the splitter worker. -/
lemma wordsAux_map_lower (s : List Char) : ∀ acc : List Char,
    wordsAux (s.map toLowerChar) (acc.map toLowerChar) =
      (wordsAux s acc).map (List.map toLowerChar) := by
  induction s with
  | nil =>
    intro acc
    cases acc with
    | nil => rfl
    | cons a as =>
      simp only [List.map_nil, List.map_cons, wordsAux]
      rw [← List.map_cons, List.map_reverse]
  | cons c cs ih =>
    intro acc
    simp only [List.map_cons]
    by_cases hws : c.isWhitespace
    · have hws' : (toLowerChar c).isWhitespace = true := by
        rw [toLowerChar_ws]
        exact hws
      cases acc with
      | nil =>
        rw [List.map_nil, wordsAux_ws_acc_nil _ hws', wordsAux_ws_acc_nil _ hws]
        have h0 := ih []
        rw [List.map_nil] at h0
        exact h0
      | cons a as =>
        rw [List.map_cons, wordsAux_ws_acc_cons _ hws', wordsAux_ws_acc_cons _ hws]
        rw [List.map_cons]
        have h0 := ih []
        rw [List.map_nil] at h0
        rw [h0, ← List.map_cons, List.map_reverse]
    · have hws0 : c.isWhitespace = false := by
        cases hcw : c.isWhitespace with
        | false => rfl
        | true => exact absurd hcw hws
      have hws0' : (toLowerChar c).isWhitespace = false := by
        rw [toLowerChar_ws]
        exact hws0
      rw [wordsAux_not_ws _ hws0', wordsAux_not_ws _ hws0]
      have h0 := ih (c :: acc)
      rw [List.map_cons] at h0
      exact h0

/-- Lower casing commutes with the space join. -/
lemma joinSpace_map_lower (ws : List (List Char)) :
    joinSpace (ws.map (List.map toLowerChar)) = (joinSpace ws).map toLowerChar := by
  induction ws with
  | nil => rfl
  | cons w ws ih =>
    cases ws with
    | nil => rfl
    | cons w' ws' =>
      simp only [List.map_cons, joinSpace, List.map_append]
      rw [List.map_cons] at ih
      rw [ih]
      simp [show toLowerChar ' ' = ' ' by decide]

/-- Lower casing commutes with whitespace collapsing. -/
lemma collapseWs_toLowerL (s : List Char) :
    collapseWs (toLowerL s) = toLowerL (collapseWs s) := by
  rw [collapseWs, collapseWs, toLowerL, toLowerL, pySplit, pySplit]
  have h := wordsAux_map_lower s []
  rw [List.map_nil] at h
  rw [h, joinSpace_map_lower]

/-- The replacement pass of clean_text is the identity when every
pattern is nonempty and has a character missing from the text. -/
lemma replace_phase_id (P : List (List Char × List Char)) :
    ∀ t : List Char, (∀ kv ∈ P, kv.1 ≠ [] ∧ ∀ x ∈ kv.1, x ∉ t) →
    P.foldl (fun s kv => replaceL s kv.1 kv.2) t = t := by
  induction P with
  | nil => intro t _; rfl
  | cons kv P ih =>
    intro t h
    have h0 := h kv (List.mem_cons_self _ _)
    have hid : replaceL t kv.1 kv.2 = t := by
      cases hk : kv.1 with
      | nil => exact absurd hk h0.1
      | cons p pt =>
        refine replaceL_no_char t (p :: pt) kv.2 p (List.mem_cons_self _ _) ?_
        exact h0.2 p (by rw [hk]; exact List.mem_cons_self _ _)
    simp only [List.foldl_cons]
    rw [hid]
    exact ih t (fun kv' hkv' => h kv' (List.mem_cons_of_mem _ hkv'))

/-- A character missing from the text and from every replacement value
stays missing through the whole replacement pass. -/
lemma foldl_replace_not_mem (x : Char) (P : List (List Char × List Char)) :
    ∀ t : List Char, x ∉ t → (∀ kv ∈ P, x ∉ kv.2) →
    x ∉ P.foldl (fun s kv => replaceL s kv.1 kv.2) t := by
  induction P with
  | nil => intro t ht _; exact ht
  | cons kv P ih =>
    intro t ht hP
    simp only [List.foldl_cons]
    exact ih _ (replaceL_not_mem t kv.1 kv.2 x ht (hP kv (List.mem_cons_self _ _)))
      (fun kv' h => hP kv' (List.mem_cons_of_mem _ h))

/-- Claim C9, counterexample: the claim as stated fails.  The map with
the single entry mapping the letter a to x and the text consisting of
the single letter A satisfy the hypothesis of the claim — no character
of the text occurs among the keys — yet cleaning twice gives x while
cleaning once gives a, because the lower casing step of clean reaches
the key only on the second pass. -/
theorem c9_clean_idempotence_counterexample :
    (∀ kv ∈ ([(['a'], ['x'])] : List (List Char × List Char)),
      ∀ x ∈ kv.1, x ∉ (['A'] : List Char)) ∧
    clean_text (clean_text ['A'] [(['a'], ['x'])]) [(['a'], ['x'])] ≠
      clean_text ['A'] [(['a'], ['x'])] := by decide

/-- Claim C9 (amended): clean is idempotent on texts whose characters
avoid the keys of the punctuation map, provided additionally that the
keys are nonempty and that the whitespace collapsed, lower cased text
still avoids every key character — the counterexample shows the extra
conditions are needed because cleaning lower cases the text and
collapses whitespace before the second pass sees it. -/
theorem c9_clean_idempotence_amended (P : List (List Char × List Char))
    (T : List Char)
    (hk : ∀ kv ∈ P, kv.1 ≠ [])
    (hT : ∀ kv ∈ P, ∀ x ∈ kv.1, x ∉ T)
    (hU : ∀ kv ∈ P, ∀ x ∈ kv.1, x ∉ toLowerL (collapseWs T)) :
    clean_text (clean_text T P) P = clean_text T P := by
  have h1 : clean_text T P = toLowerL (collapseWs T) := by
    rw [clean_text, replace_phase_id P T (fun kv hkv => ⟨hk kv hkv, hT kv hkv⟩)]
  rw [h1, clean_text,
    replace_phase_id P _ (fun kv hkv => ⟨hk kv hkv, hU kv hkv⟩)]
  rw [collapseWs_toLowerL, collapseWs_idem, toLowerL_idem]

/-- Claim C9 witness: the amended idempotence at the production
punctuation map on a concrete text. -/
theorem c9_clean_idempotence_witness :
    clean_text (clean_text "Hello There".toList token_lookup) token_lookup =
      clean_text "Hello There".toList token_lookup :=
  c9_clean_idempotence_amended token_lookup "Hello There".toList
    (by decide) (by decide) (by decide)

/-- Front of the punctuation map up to and including the question mark
entry. -/
def tlA : List (List Char × List Char) :=
  [ (".".toList, " <PERIOD> ".toList)
  , ("!".toList, " <EXCLAMATION_MARK> ".toList)
  , ("?".toList, " <QUESTION_MARK> ".toList) ]

/-- Entries of the punctuation map strictly between the question mark
entry and the dead triple question mark entry. -/
def tlB : List (List Char × List Char) :=
  [ (",".toList, " <COMMA> ".toList)
  , ("\"".toList, " <QUOTATION_MARK> ".toList)
  , (";".toList, " <SEMICOLON> ".toList)
  , ("(".toList, " <LEFT_PAREN> ".toList)
  , (")".toList, " <RIGHT_PAREN> ".toList)
  , ("-".toList, " <DASH> ".toList) ]

/-- Tail of the punctuation map after the dead entry. -/
def tlC : List (List Char × List Char) := [("\n".toList, " <NEW_LINE> ".toList)]

/-- Claim C10: for every input text, cleaning with the full punctuation
map equals cleaning with the map minus its triple question mark entry.
The earlier single question mark entry replaces every question mark
with a placeholder containing none, no later entry before the dead one
reintroduces the character, so the triple question mark replacement
never fires. -/
theorem c10_dead_triple_question_entry (text : List Char) :
    clean_text text token_lookup = clean_text text (token_lookup.eraseIdx 9) := by
  have hq : '?' ∉ List.foldl (fun s kv => replaceL s kv.1 kv.2)
      (List.foldl (fun s kv => replaceL s kv.1 kv.2) text tlA) tlB := by
    refine foldl_replace_not_mem '?' tlB _ ?_ ?_
    · exact replaceL_single_removes '?' " <QUESTION_MARK> ".toList _ (by decide)
    · intro kv hkv
      fin_cases hkv <;> decide
  have hsplit : token_lookup =
      (tlA ++ tlB) ++ (("???".toList, " <DASH> ".toList) :: tlC) := by rfl
  have hsplit2 : token_lookup.eraseIdx 9 = (tlA ++ tlB) ++ tlC := by rfl
  rw [clean_text, clean_text, hsplit2, hsplit]
  simp only [List.foldl_append, List.foldl_cons]
  rw [replaceL_no_char _ "???".toList " <DASH> ".toList '?' (by decide) hq]
